import Mathlib

/-!
Shallow embedding of the PerpInfra perpetual-futures engine core
(`src/types`, `src/settlement`, `src/risk/pnl.rs`, `src/funding/payment_calculator.rs`,
`src/matching`, `src/core/event_processor.rs`) together with proofs settling the
frozen specification claims.

Modelling conventions:
* Rust `i64` values (the fixed-point scalars `Price`, `Quantity`, `Balance` and raw
  position sizes) are modelled as `Int`; Rust arithmetic panics on overflow in the
  builds the tests exercise, so the embedding captures the non-overflowing runs.
* Rust `u64` sequence numbers are modelled as `Nat`.
* 128-bit UUID identifiers are modelled as `Nat` carrying the same bits.
* Rust truncating `i64` division (`/`) is `Int.tdiv`.
* `f64` appears in the source only in the fee-rate path
  (`Balance::from_f64`, `Balance::to_f64().ceil()`); the rates are modelled as `ℚ`
  and the `as i64` cast as truncation toward zero, which is exact for the
  magnitudes the claims exercise (well below 2^53).
* Nondeterministic inputs (`Uuid::new_v4`, `Timestamp::now`) are modelled as
  explicit parameters; fields no claim touches (timestamps, ledger text fields,
  metrics) are omitted.
-/

namespace PerpInfra

/-- Rust `f64 as i64` cast: truncation toward zero (source:
`Balance::from_f64` in `src/types/balance.rs`). -/
def truncQ (x : ℚ) : Int :=
  if 0 ≤ x then ⌊x⌋ else ⌈x⌉

/-- `src/events/order.rs` `Side`. -/
inductive SideS where
  | buy
  | sell
deriving DecidableEq, Repr

/-- `src/events/order.rs` `TimeInForce`. -/
inductive TIFS where
  | gtc
  | ioc
  | fok
deriving DecidableEq, Repr

/-- Engine error variants relevant to the claims (`src/error.rs`). -/
inductive ErrS where
  | killSwitchActive
  | sequenceGap (expected actual : Nat)
  | checksumMismatch
  | accountNotFound
  | accountAlreadyExists
  | insufficientAvailableBalance
  | fundingNotZeroSum (sum : Int)
  | duplicateOrderId
deriving DecidableEq, Repr

/-! ## Accounts and the balance manager (`src/settlement/accounts.rs`,
`src/settlement/balance_manager.rs`, `src/types/ids.rs`) -/

/-- `Account` (`src/settlement/accounts.rs`); `realized_pnl` and the two
timestamps are omitted (no claim reads them). Identifiers are the 128 UUID bits
as `Nat`. -/
structure AccountS where
  account_id : Nat
  user_id : Nat
  balance : Int
  reserved_margin : Int
deriving DecidableEq, Repr

/-- `AccountId::from_user` (`src/types/ids.rs` lines 50-56): the account id is
the user id's own UUID bits. -/
def AccountId.fromUser (user_id : Nat) : Nat := user_id

/-- `Account::new` (`src/settlement/accounts.rs` lines 18-29). The source calls
`AccountId::new()`, i.e. `Uuid::new_v4()`: a fresh random UUID, modelled by the
explicit `freshUuid` parameter (the value the random generator returns). -/
def AccountS.new (user_id freshUuid : Nat) : AccountS :=
  { account_id := freshUuid
    user_id := user_id
    balance := 0
    reserved_margin := 0 }

/-- `Account::available_balance`. -/
def AccountS.available (a : AccountS) : Int :=
  a.balance - a.reserved_margin

/-- The `HashMap<UserId, Account>` of `BalanceManager`, as an association list
(unique keys in every state the engine builds; operations use first-match). The
ledger is omitted: its entries are write-only for every claim. -/
def Mgr := List (Nat × AccountS)

instance : DecidableEq Mgr := by
  unfold Mgr
  infer_instance

/-- `HashMap::get`. -/
def lookupAccount (m : Mgr) (u : Nat) : Option AccountS :=
  match m with
  | [] => none
  | (k, a) :: rest => if k = u then some a else lookupAccount rest u

/-- In-place mutation of the entry for `u` (Rust `get_mut` followed by field
assignment). -/
def updateAccount (m : Mgr) (u : Nat) (f : AccountS → AccountS) : Mgr :=
  match m with
  | [] => []
  | (k, a) :: rest =>
    if k = u then (k, f a) :: rest else (k, a) :: updateAccount rest u f

/-- `BalanceManager::create_account` (`src/settlement/balance_manager.rs`
lines 23-32); `freshUuid` is the UUID drawn inside `Account::new`. -/
def createAccount (m : Mgr) (user_id freshUuid : Nat) :
    Mgr × Except ErrS AccountS :=
  match lookupAccount m user_id with
  | some _ => (m, .error .accountAlreadyExists)
  | none =>
    let a := AccountS.new user_id freshUuid
    ((user_id, a) :: m, .ok a)

/-- `BalanceManager::adjust_balance` (`src/settlement/balance_manager.rs`
lines 64-87): adds the signed amount unconditionally. -/
def adjustBalance (m : Mgr) (u : Nat) (amount : Int) : Mgr × Option ErrS :=
  match lookupAccount m u with
  | none => (m, some .accountNotFound)
  | some _ =>
    (updateAccount m u (fun a => { a with balance := a.balance + amount }), none)

/-- `BalanceManager::reserve_margin` (`src/settlement/balance_manager.rs`
lines 89-118). -/
def reserveMargin (m : Mgr) (u : Nat) (amount : Int) : Mgr × Option ErrS :=
  match lookupAccount m u with
  | none => (m, some .accountNotFound)
  | some a =>
    if a.available < amount then
      (m, some .insufficientAvailableBalance)
    else
      (updateAccount m u
        (fun a => { a with reserved_margin := a.reserved_margin + amount }), none)

/-- `BalanceManager::release_margin` (`src/settlement/balance_manager.rs`
lines 120-143): subtracts unconditionally. -/
def releaseMargin (m : Mgr) (u : Nat) (amount : Int) : Mgr × Option ErrS :=
  match lookupAccount m u with
  | none => (m, some .accountNotFound)
  | some _ =>
    (updateAccount m u
      (fun a => { a with reserved_margin := a.reserved_margin - amount }), none)

/-! ## Positions and PnL (`src/types/position.rs`, `src/risk/pnl.rs`) -/

/-- `Position` (`src/types/position.rs`); `user_id`, `market_id` and
`last_funding_timestamp` are omitted (fixed by context in every claim). Prices
and PnL are raw `i64` fixed-point values. -/
structure PositionS where
  size : Int
  entry_price : Int
  realized_pnl : Int
deriving DecidableEq, Repr

def PositionS.isLong (p : PositionS) : Bool := 0 < p.size
def PositionS.isShort (p : PositionS) : Bool := p.size < 0
def PositionS.isFlat (p : PositionS) : Bool := p.size = 0

/-- `PnLCalculator::calculate_realized_pnl` (`src/risk/pnl.rs` lines 26-50). -/
def calcRealizedPnl (pos : PositionS) (side : SideS) (q p : Int) : Int :=
  let isReducing :=
    match side with
    | .buy => pos.isShort
    | .sell => pos.isLong
  if !isReducing then 0
  else
    let closeQty := min q pos.size.natAbs
    let pnlPerUnit :=
      if pos.isLong then p - pos.entry_price else pos.entry_price - p
    closeQty * pnlPerUnit

/-- `PnLCalculator::update_position` (`src/risk/pnl.rs` lines 53-87). -/
def updatePosition (pos : PositionS) (side : SideS) (q p : Int) : PositionS :=
  let tradeSizeSigned :=
    match side with
    | .buy => q
    | .sell => -q
  let newSize := pos.size + tradeSizeSigned
  let realized := calcRealizedPnl pos side q p
  let pos1 := { pos with realized_pnl := pos.realized_pnl + realized }
  let pos2 :=
    if (0 ≤ pos.size ∧ pos.size < newSize) ∨ (pos.size ≤ 0 ∧ newSize < pos.size) then
      let oldNotional := (pos.size.natAbs : Int) * pos.entry_price
      let newNotional := q * p
      let totalSize := (pos.size.natAbs : Int) + q
      if 0 < totalSize then
        { pos1 with entry_price := Int.tdiv (oldNotional + newNotional) totalSize }
      else pos1
    else if newSize = 0 then
      { pos1 with entry_price := 0 }
    else pos1
  { pos2 with size := newSize }

/-! ## Funding payments (`src/events/funding.rs`,
`src/funding/payment_calculator.rs`) -/

/-- `FundingPayment` (`src/events/funding.rs`). -/
structure FundingPaymentS where
  user_id : Nat
  position_size : Int
  payment : Int
deriving DecidableEq, Repr

/-- The `i64` sum the source computes over `payments.iter().map(|p| p.payment.to_i64())`. -/
def sumPayments (l : List FundingPaymentS) : Int :=
  (l.map (·.payment)).sum

/-- `Iterator::max_by_key` on the payments keyed by `|payment|`: returns the
index of the maximum, taking the LAST of several equal maxima (Rust semantics).
Helper for `ensureZeroSum`. -/
def lastArgmaxAux (l : List Int) (i : Nat) (best : Option (Nat × Nat)) :
    Option (Nat × Nat) :=
  match l with
  | [] => best
  | x :: xs =>
    let b :=
      match best with
      | none => some (i, x.natAbs)
      | some (bi, bk) => if bk ≤ x.natAbs then some (i, x.natAbs) else some (bi, bk)
    lastArgmaxAux xs (i + 1) b

def lastArgmaxAbs (l : List Int) : Option Nat :=
  (lastArgmaxAux l 0 none).map (·.1)

/-- In-place mutation of the selected payment:
`largest.payment = Balance::from_i64(largest.payment.to_i64() - sum)`. -/
def adjustAt (l : List FundingPaymentS) (i : Nat) (s : Int) : List FundingPaymentS :=
  match l, i with
  | [], _ => []
  | p :: ps, 0 => { p with payment := p.payment - s } :: ps
  | p :: ps, n + 1 => p :: adjustAt ps n s

/-- `FundingPaymentCalculator::ensure_zero_sum`
(`src/funding/payment_calculator.rs` lines 65-80). -/
def ensureZeroSum (l : List FundingPaymentS) : List FundingPaymentS :=
  let s := sumPayments l
  if s = 0 then l
  else
    match lastArgmaxAbs (l.map (·.payment)) with
    | none => l
    | some i => adjustAt l i s

/-! ## Order book and matcher (`src/matching/order_book.rs`,
`src/matching/matcher.rs`, `src/matching/self_trade.rs`) -/

/-- Resting order (`src/matching/order_book.rs` `Order`); the `timestamp`,
`reduce_only` and `post_only` fields are omitted (no matching code path the
claims exercise reads them). -/
structure OrderS where
  order_id : Nat
  user_id : Nat
  side : SideS
  price : Int
  quantity : Int
  filled : Int
  time_in_force : TIFS
deriving DecidableEq, Repr

/-- `PriceLevel` (`src/matching/order_book.rs`). -/
structure LevelS where
  price : Int
  orders : List OrderS
  total_quantity : Int
deriving DecidableEq, Repr

/-- `OrderBook`: `bids` sorted price-descending, `asks` price-ascending (the
two `BTreeMap`s, flattened to their in-order level lists); `index` is the key
set of the `orders: HashMap<OrderId, Order>` lookup map. -/
structure BookS where
  bids : List LevelS
  asks : List LevelS
  index : List Nat
deriving DecidableEq, Repr

/-- `Trade`/`TradeEvent` fields the matcher fills in (`src/events/trade.rs`);
the event envelope and the freshly generated `trade_id` are omitted. -/
structure TradeS where
  maker_order_id : Nat
  taker_order_id : Nat
  maker_user_id : Nat
  taker_user_id : Nat
  price : Int
  quantity : Int
  maker_side : SideS
  maker_fee : Int
  taker_fee : Int
deriving DecidableEq, Repr

/-- `Matcher::price_crosses` (`src/matching/matcher.rs` lines 162-167). -/
def priceCrosses (side : SideS) (orderPrice levelPrice : Int) : Bool :=
  match side with
  | .buy => decide (levelPrice ≤ orderPrice)
  | .sell => decide (orderPrice ≤ levelPrice)

/-- `Matcher::calculate_maker_fee` (`src/matching/matcher.rs` lines 169-176):
`notional = quantity * price` (raw `i64` product, `Quantity: Mul<Price>` in
`src/types/quantity.rs` performs no rescaling), then
`notional * Balance::from_f64(rate)` where `from_f64` truncates the `f64` rate
toward zero. -/
def calcMakerFee (makerRate : ℚ) (quantity price : Int) : Int :=
  let notional := quantity * price
  notional * truncQ makerRate

/-- `Matcher::calculate_taker_fee` (`src/matching/matcher.rs` lines 178-187):
same product, then `Balance::from_i64(amount.to_f64().ceil() as i64)`; the
round trip through `f64` is exact for `|amount| < 2^53`, so it is the ceiling
of the integer amount, i.e. the amount itself. -/
def calcTakerFee (takerRate : ℚ) (quantity price : Int) : Int :=
  let notional := quantity * price
  let amount := notional * truncQ takerRate
  ⌈(amount : ℚ)⌉

/-- `Matcher::calculate_order_margin` (`src/matching/matcher.rs` lines
189-192): `order.quantity * mark_price / 20` with truncating `i64` division. -/
def calcOrderMargin (o : OrderS) (markPrice : Int) : Int :=
  Int.tdiv (o.quantity * markPrice) 20

/-- `check_self_trade` (`src/matching/self_trade.rs`): `CancelMaker` when the
maker and taker belong to the same user, `Allow` otherwise. `true` means
cancel the maker. -/
def selfTradeCancelsMaker (maker taker : OrderS) : Bool :=
  decide (maker.user_id = taker.user_id)

/-- Result of matching against one price level's FIFO queue. -/
structure LevelMatch where
  trades : List TradeS
  remaining : Int
  orders : List OrderS
  removed : List Nat
  qtyDelta : Int
deriving Repr

/-- The inner `while remaining > 0 && !level.orders.is_empty()` loop of
`Matcher::match_order` (`src/matching/matcher.rs` lines 65-132): walk the FIFO
queue, cancelling self-trade makers and filling otherwise; `removed` collects
the order ids deleted from the book index, `qtyDelta` the total subtracted
from `level.total_quantity`. -/
def matchAtLevel (taker : OrderS) (feeM feeT : ℚ) :
    Int → List OrderS → LevelMatch
  | rem, [] => ⟨[], rem, [], [], 0⟩
  | rem, maker :: rest =>
    if rem ≤ 0 then ⟨[], rem, maker :: rest, [], 0⟩
    else if selfTradeCancelsMaker maker taker then
      let r := matchAtLevel taker feeM feeT rem rest
      ⟨r.trades, r.remaining, r.orders, maker.order_id :: r.removed,
        (maker.quantity - maker.filled) + r.qtyDelta⟩
    else
      let makerRem := maker.quantity - maker.filled
      let fill := min rem makerRem
      let trade : TradeS :=
        { maker_order_id := maker.order_id
          taker_order_id := taker.order_id
          maker_user_id := maker.user_id
          taker_user_id := taker.user_id
          price := maker.price
          quantity := fill
          maker_side := maker.side
          maker_fee := calcMakerFee feeM fill maker.price
          taker_fee := calcTakerFee feeT fill maker.price }
      let maker' := { maker with filled := maker.filled + fill }
      if maker'.filled = maker.quantity then
        let r := matchAtLevel taker feeM feeT (rem - fill) rest
        ⟨trade :: r.trades, r.remaining, r.orders, maker.order_id :: r.removed,
          fill + r.qtyDelta⟩
      else
        ⟨[trade], rem - fill, maker' :: rest, [], fill⟩

/-- Result of the outer matching loop. -/
structure LoopMatch where
  trades : List TradeS
  remaining : Int
  levels : List LevelS
  removed : List Nat
deriving Repr

/-- The outer `while remaining > 0` loop of `Matcher::match_order`
(`src/matching/matcher.rs` lines 35-142): peek the best opposite level, stop
when absent or not crossed, otherwise match the level; an emptied level is
removed from the map. When the inner loop leaves the level non-empty the
taker's remainder is zero, so the loop exits. -/
def matchLoop (taker : OrderS) (feeM feeT : ℚ) :
    Int → List LevelS → LoopMatch
  | rem, [] => ⟨[], rem, [], []⟩
  | rem, lvl :: rest =>
    if rem ≤ 0 then ⟨[], rem, lvl :: rest, []⟩
    else if !priceCrosses taker.side taker.price lvl.price then
      ⟨[], rem, lvl :: rest, []⟩
    else
      let r := matchAtLevel taker feeM feeT rem lvl.orders
      if r.orders.isEmpty then
        let rl := matchLoop taker feeM feeT r.remaining rest
        ⟨r.trades ++ rl.trades, rl.remaining, rl.levels,
          r.removed ++ rl.removed⟩
      else
        ⟨r.trades, r.remaining,
          { lvl with orders := r.orders,
                     total_quantity := lvl.total_quantity - r.qtyDelta } :: rest,
          r.removed⟩

/-- `OrderBook::add_order` helpers (`src/matching/order_book.rs` lines 45-73):
`BTreeMap::entry(..).or_insert_with(..)` followed by `push_back` and a
`total_quantity` bump, on a price-sorted level list. -/
def pushToLevel (o : OrderS) (lvl : LevelS) : LevelS :=
  { lvl with orders := lvl.orders ++ [o],
             total_quantity := lvl.total_quantity + (o.quantity - o.filled) }

def singletonLevel (o : OrderS) : LevelS :=
  { price := o.price, orders := [o], total_quantity := o.quantity - o.filled }

/-- Insert into the bids map (price descending). -/
def insertBid (o : OrderS) : List LevelS → List LevelS
  | [] => [singletonLevel o]
  | l :: ls =>
    if l.price = o.price then pushToLevel o l :: ls
    else if l.price < o.price then singletonLevel o :: l :: ls
    else l :: insertBid o ls

/-- Insert into the asks map (price ascending). -/
def insertAsk (o : OrderS) : List LevelS → List LevelS
  | [] => [singletonLevel o]
  | l :: ls =>
    if l.price = o.price then pushToLevel o l :: ls
    else if o.price < l.price then singletonLevel o :: l :: ls
    else l :: insertAsk o ls

/-- `OrderBook::add_order` (`src/matching/order_book.rs` lines 45-73). -/
def addOrder (book : BookS) (o : OrderS) : BookS × Option ErrS :=
  if o.order_id ∈ book.index then (book, some .duplicateOrderId)
  else
    match o.side with
    | .buy =>
      ({ book with bids := insertBid o book.bids,
                   index := o.order_id :: book.index }, none)
    | .sell =>
      ({ book with asks := insertAsk o book.asks,
                   index := o.order_id :: book.index }, none)

/-- Result of `Matcher::match_order`: the mutated book and balance state plus
the Rust `Result<Vec<TradeEvent>>`. -/
structure MatchResult where
  book : BookS
  balances : Mgr
  result : Except ErrS (List TradeS)

def List.removeAll' (l : List Nat) (r : List Nat) : List Nat :=
  l.filter (fun x => !(x ∈ r : Bool))

/-- `Matcher::match_order` (`src/matching/matcher.rs` lines 28-160): run the
matching loops against the side opposite the taker, then rest any GTC
remainder after reserving its margin. On a reservation or insertion failure
the book mutations performed so far persist and the trades are discarded
(`Err` propagation out of `&mut self`). -/
def matchOrder (feeM feeT : ℚ) (order : OrderS) (book : BookS) (bal : Mgr)
    (markPrice : Int) : MatchResult :=
  let opp := match order.side with
    | .buy => book.asks
    | .sell => book.bids
  let r := matchLoop order feeM feeT order.quantity opp
  let book1 := match order.side with
    | .buy => { book with asks := r.levels,
                          index := List.removeAll' book.index r.removed }
    | .sell => { book with bids := r.levels,
                           index := List.removeAll' book.index r.removed }
  if 0 < r.remaining ∧ order.time_in_force = .gtc then
    let bookOrder := { order with filled := order.quantity - r.remaining }
    let margin := calcOrderMargin bookOrder markPrice
    match reserveMargin bal order.user_id margin with
    | (bal', some e) => ⟨book1, bal', .error e⟩
    | (bal', none) =>
      match addOrder book1 bookOrder with
      | (book2, some e) => ⟨book2, bal', .error e⟩
      | (book2, none) => ⟨book2, bal', .ok r.trades⟩
  else
    ⟨book1, bal, .ok r.trades⟩

/-! ## The event processor (`src/core/event_processor.rs`) -/

/-- The typed payload union (`src/events/base.rs` `EventPayload`). Only the
`Funding` arm carries data a claim inspects; the remaining seven payload kinds
are collapsed into `other`, dispatched through an explicit handler parameter so
no behaviour is invented for them. -/
inductive PayloadS where
  | funding (payments : List FundingPaymentS)
  | other (tag : Nat)
deriving DecidableEq, Repr

/-- `BaseEvent` fields `process_event` reads: the sequence number and the
payload. The SHA-256 checksum comparison `verify_checksum` is abstracted as a
boolean predicate parameter of the processor. -/
structure EventS where
  sequence : Nat
  payload : PayloadS
deriving DecidableEq, Repr

/-- `EventProcessor` state visible to the claims: `last_sequence`, the `halted`
flag, the global `KILL_SWITCH`, and the balance-manager sub-state mutated by
dispatch. -/
structure ProcStateS where
  lastSequence : Nat
  halted : Bool
  killSwitch : Bool
  sub : Mgr
deriving DecidableEq

/-- Steps 1-2 of `EventProcessor::process_funding`
(`src/core/event_processor.rs` lines 489-540): apply every payment through
`adjust_balance` (propagating its error, with earlier payments kept), sum the
raw amounts, and fail with `FundingNotZeroSum` when the sum is nonzero. Step 3
(funding-timestamp updates on positions) happens after the zero-sum check and
touches no modelled field. -/
def applyPayments : List FundingPaymentS → Mgr → Mgr × Int × Option ErrS
  | [], m => (m, 0, none)
  | p :: ps, m =>
    match adjustBalance m p.user_id p.payment with
    | (m', none) =>
      let r := applyPayments ps m'
      (r.1, p.payment + r.2.1, r.2.2)
    | (m', some e) => (m', 0, some e)

def processFunding (payments : List FundingPaymentS) (m : Mgr) :
    Mgr × Option ErrS :=
  let r := applyPayments payments m
  match r.2.2 with
  | some e => (r.1, some e)
  | none =>
    if r.2.1 ≠ 0 then (r.1, some (.fundingNotZeroSum r.2.1))
    else (r.1, none)

/-- The dispatch table of `process_event` (lines 161-172): the `Funding` arm is
embedded; the other arms are the caller-supplied `dispatchOther`. -/
def dispatchEvent (dispatchOther : EventS → Mgr → Mgr × Option ErrS)
    (e : EventS) (m : Mgr) : Mgr × Option ErrS :=
  match e.payload with
  | .funding ps => processFunding ps m
  | .other _ => dispatchOther e m

/-- `EventProcessor::process_event` (`src/core/event_processor.rs` lines
108-176): halt short-circuit, duplicate discard, gap kill switch, checksum
verification, dispatch, and the `last_sequence` advance on success. `verify`
abstracts `BaseEvent::verify_checksum`. -/
def processEvent (verify : EventS → Bool)
    (dispatchOther : EventS → Mgr → Mgr × Option ErrS)
    (st : ProcStateS) (e : EventS) : ProcStateS × Option ErrS :=
  if st.halted then (st, some .killSwitchActive)
  else
    let expected := st.lastSequence + 1
    if e.sequence < expected then (st, none)
    else if expected < e.sequence then
      ({ st with killSwitch := true }, some (.sequenceGap expected e.sequence))
    else if !verify e then (st, some .checksumMismatch)
    else
      let d := dispatchEvent dispatchOther e st.sub
      match d.2 with
      | some err => ({ st with sub := d.1 }, some err)
      | none => ({ st with sub := d.1, lastSequence := e.sequence }, none)

/-- `process_order_submit` step 4 (`src/core/event_processor.rs` lines
224-239): the internal order built from the submitted payload, with
`price: order_submit.price.unwrap_or(Price::zero())`. -/
structure OrderSubmitS where
  order_id : Nat
  user_id : Nat
  side : SideS
  price : Option Int
  quantity : Int
  time_in_force : TIFS
deriving DecidableEq, Repr

def mkInternalOrder (s : OrderSubmitS) : OrderS :=
  { order_id := s.order_id
    user_id := s.user_id
    side := s.side
    price := s.price.getD 0
    quantity := s.quantity
    filled := 0
    time_in_force := s.time_in_force }

deriving instance DecidableEq for Except

/-- Book well-formedness the order book maintains (each resting order sits in
the level keyed by its own price; `BTreeMap` key = `PriceLevel.price`). -/
def levelsWF (ls : List LevelS) : Prop :=
  ∀ lvl ∈ ls, ∀ o ∈ lvl.orders, o.price = lvl.price

instance (ls : List LevelS) : Decidable (levelsWF ls) := by
  unfold levelsWF
  infer_instance

/-- Sequential application of every funding payment through `adjust_balance`,
in event order: the state the processor reaches just before its zero-sum
check. -/
def applyAllP (ps : List FundingPaymentS) (m : Mgr) : Mgr :=
  ps.foldl (fun m p => (adjustBalance m p.user_id p.payment).1) m

/-- Sum of all account balances; used to witness that applying a
non-zero-sum funding event changes the state. -/
def totalBalance (m : Mgr) : Int :=
  (m.map (·.2.balance)).sum

/-! ## Shared concrete fixtures for witnesses and counterexamples -/

def makerRest : OrderS := ⟨10, 100, .sell, 100, 1, 0, .gtc⟩

def bookOneAsk : BookS := ⟨[], [⟨100, [makerRest], 1⟩], [10]⟩

def mgrTwo : Mgr := [(200, ⟨200, 200, 1000, 0⟩), (100, ⟨100, 100, 1000, 0⟩)]

def constTrueVerify : EventS → Bool := fun _ => true

def noopDispatch : EventS → Mgr → Mgr × Option ErrS := fun _ m => (m, none)

def takerIOC : OrderS := ⟨11, 200, .buy, 100, 1, 0, .ioc⟩

def tradeW : TradeS := ⟨10, 11, 100, 200, 100, 1, .sell, 0, 0⟩

def subW : OrderSubmitS := ⟨12, 200, .buy, none, 5, .gtc⟩

def paymentsW : List FundingPaymentS := [⟨1, 3, -15⟩, ⟨2, -2, 10⟩, ⟨3, -1, 6⟩]

/-! ## Lemmas about the balance-manager map -/

theorem lookup_update_self (m : Mgr) (u : Nat) (f : AccountS → AccountS) :
    lookupAccount (updateAccount m u f) u = (lookupAccount m u).map f := by
  induction m with
  | nil => rfl
  | cons h t ih =>
    obtain ⟨k, a⟩ := h
    by_cases hk : k = u <;> simp [updateAccount, lookupAccount, hk, ih]

theorem lookup_update_other (m : Mgr) (u v : Nat) (f : AccountS → AccountS)
    (h : v ≠ u) :
    lookupAccount (updateAccount m u f) v = lookupAccount m v := by
  induction m with
  | nil => rfl
  | cons hd t ih =>
    obtain ⟨k, a⟩ := hd
    by_cases hk : k = u
    · subst hk
      simp [updateAccount, lookupAccount, Ne.symm h, ih]
    · simp [updateAccount, lookupAccount, hk, ih]

/-! ## C3 -/

/-- C3, counterexample: `adjust_balance` performs no nonnegativity check, so a
negative adjustment on a zero-balance account returns `Ok` and leaves
`balance = -5 < 0`, contradicting the claim that every `Ok` operation leaves
`balance ≥ 0`. -/
theorem c3_counterexample :
    (adjustBalance [(1, ⟨1, 1, 0, 0⟩)] 1 (-5)).2 = none ∧
    lookupAccount (adjustBalance [(1, ⟨1, 1, 0, 0⟩)] 1 (-5)).1 1 =
      some ⟨1, 1, -5, 0⟩ ∧
    ¬ (0 : Int) ≤ (-5 : Int) := by
  decide

/-- C3, amended: `adjust_balance` applies its signed delta unconditionally
whenever the account exists (so it cannot re-establish `balance ≥ 0`), while
`reserve_margin` does preserve the account invariants: when
`0 ≤ reserved_margin ≤ balance` held before, the amount is nonnegative, and
the call returns `Ok`, then afterwards `balance ≥ 0` and
`0 ≤ reserved_margin ≤ balance` still hold. -/
theorem c3_amended_balance_ops (m : Mgr) (u : Nat) (amt : Int) (a : AccountS) :
    (lookupAccount m u = some a →
      adjustBalance m u amt =
        (updateAccount m u (fun x => { x with balance := x.balance + amt }), none) ∧
      lookupAccount (adjustBalance m u amt).1 u =
        some { a with balance := a.balance + amt })
  ∧ (lookupAccount m u = some a → 0 ≤ a.reserved_margin →
      a.reserved_margin ≤ a.balance → 0 ≤ amt →
      (reserveMargin m u amt).2 = none →
      lookupAccount (reserveMargin m u amt).1 u =
        some { a with reserved_margin := a.reserved_margin + amt } ∧
      0 ≤ a.balance ∧
      0 ≤ a.reserved_margin + amt ∧ a.reserved_margin + amt ≤ a.balance) := by
  constructor
  · intro hl
    constructor
    · simp [adjustBalance, hl]
    · simp [adjustBalance, hl, lookup_update_self]
  · intro hl hr0 hrb hamt hok
    have hav : ¬ a.available < amt := by
      intro hlt
      simp [reserveMargin, hl, hlt] at hok
    constructor
    · simp [reserveMargin, hl, hav, lookup_update_self]
    · have : amt ≤ a.balance - a.reserved_margin := by
        simpa [AccountS.available] using not_lt.mp hav
      refine ⟨by omega, by omega, by omega⟩

/-- C3, witness for the amended theorem at a concrete state. -/
theorem c3_witness :
    lookupAccount (reserveMargin [(1, (⟨1, 1, 10, 2⟩ : AccountS))] 1 3).1 1 =
      some { (⟨1, 1, 10, 2⟩ : AccountS) with reserved_margin := 2 + 3 } ∧
    (0 : Int) ≤ 10 ∧ (0 : Int) ≤ 2 + 3 ∧ (2 : Int) + 3 ≤ 10 :=
  (c3_amended_balance_ops [(1, ⟨1, 1, 10, 2⟩)] 1 3 ⟨1, 1, 10, 2⟩).2
    rfl (by decide) (by decide) (by decide) (by decide)

/-! ## C4 -/

/-- C4: at scenario S1's fill (quantity 10 at price 50000, maker rate 0.0002,
taker rate 0.0005) the fee code yields 0 for both sides, not the 100 and 250
the claim requires: `Balance::from_f64` truncates every rate below 1.0 to the
integer 0 before it is multiplied with the notional. -/
theorem c4_fee_truncation_bug :
    calcMakerFee (1 / 5000 : ℚ) 10 50000 = 0 ∧
    calcTakerFee (1 / 2000 : ℚ) 10 50000 = 0 ∧
    calcMakerFee (1 / 5000 : ℚ) 10 50000 ≠ 100 ∧
    calcTakerFee (1 / 2000 : ℚ) 10 50000 ≠ 250 := by
  norm_num [calcMakerFee, calcTakerFee, truncQ]

/-! ## C5 -/

/-- C5: a Fill-Or-Kill taker (buy 2 at 100) against a book holding only 1 unit
of crossing liquidity is NOT cancelled without fills: `match_order` never
consults `TimeInForce::FOK`, so it emits the partial-fill trade and mutates the
book (the consumed ask level is gone), contradicting the claim's
all-or-nothing atomicity. -/
theorem c5_fok_partial_fill_bug :
    (matchOrder 0 0 ⟨11, 200, .buy, 100, 2, 0, .fok⟩ bookOneAsk mgrTwo 100).result =
      .ok [⟨10, 11, 100, 200, 100, 1, .sell, 0, 0⟩] ∧
    (matchOrder 0 0 ⟨11, 200, .buy, 100, 2, 0, .fok⟩ bookOneAsk mgrTwo 100).result ≠
      .ok [] ∧
    (matchOrder 0 0 ⟨11, 200, .buy, 100, 2, 0, .fok⟩ bookOneAsk mgrTwo 100).book ≠
      bookOneAsk := by
  decide

/-! ## C8 -/

/-- C8: `BalanceManager::create_account` builds the account through
`Account::new`, which draws a fresh random UUID (`AccountId::new()`), so for
the run in which the generator returns UUID bits 1 for user 2 the stored
`account_id` is 1 while `AccountId::from_user` would give 2: the account id is
NOT derived from the user id and differs across restarts. -/
theorem c8_account_id_not_derived :
    (createAccount [] 2 1).2 = .ok (AccountS.new 2 1) ∧
    (AccountS.new 2 1).account_id = 1 ∧
    AccountId.fromUser 2 = 2 ∧
    (AccountS.new 2 1).account_id ≠ AccountId.fromUser 2 := by
  decide

/-! ## C7 -/

theorem updatePosition_realized (pos : PositionS) (side : SideS) (q p : Int) :
    (updatePosition pos side q p).realized_pnl =
      pos.realized_pnl + calcRealizedPnl pos side q p := by
  unfold updatePosition
  dsimp only
  split_ifs <;> rfl

theorem updatePosition_size (pos : PositionS) (side : SideS) (q p : Int) :
    (updatePosition pos side q p).size =
      pos.size + (match side with | .buy => q | .sell => -q) := rfl

/-- C7: `update_position` realizes PnL only on the reducing portion of a fill
(`min q |size| * (p - entry)` for a long reduced by a sell, negated for a
short reduced by a buy), recomputes the entry price as the quantity-weighted
average when the position grows on its own side, and resets the entry price
to zero whenever the resulting size is zero. -/
theorem c7_update_position_pnl (pos : PositionS) (side : SideS) (q p : Int) :
    (0 < pos.size → side = .sell →
      (updatePosition pos side q p).realized_pnl =
        pos.realized_pnl + min q (pos.size.natAbs : Int) * (p - pos.entry_price))
  ∧ (pos.size < 0 → side = .buy →
      (updatePosition pos side q p).realized_pnl =
        pos.realized_pnl + min q (pos.size.natAbs : Int) * (pos.entry_price - p))
  ∧ (0 ≤ pos.size → side = .buy → 0 < q →
      (updatePosition pos side q p).entry_price =
        Int.tdiv ((pos.size.natAbs : Int) * pos.entry_price + q * p)
          ((pos.size.natAbs : Int) + q))
  ∧ (pos.size ≤ 0 → side = .sell → 0 < q →
      (updatePosition pos side q p).entry_price =
        Int.tdiv ((pos.size.natAbs : Int) * pos.entry_price + q * p)
          ((pos.size.natAbs : Int) + q))
  ∧ ((updatePosition pos side q p).size = 0 →
      (updatePosition pos side q p).entry_price = 0) := by
  refine ⟨?_, ?_, ?_, ?_, ?_⟩
  · intro hlong hside
    subst hside
    rw [updatePosition_realized]
    unfold calcRealizedPnl
    simp [PositionS.isLong, hlong]
  · intro hshort hside
    subst hside
    rw [updatePosition_realized]
    unfold calcRealizedPnl
    have h1 : pos.isShort = true := by simp [PositionS.isShort]; omega
    have h2 : pos.isLong = false := by simp [PositionS.isLong]; omega
    simp [h1, h2]
  · intro h0 hside hq
    subst hside
    unfold updatePosition
    dsimp only
    have hcond : (0 ≤ pos.size ∧ pos.size < pos.size + q) ∨
        (pos.size ≤ 0 ∧ pos.size + q < pos.size) := Or.inl ⟨h0, by omega⟩
    have htot : (0 : Int) < (pos.size.natAbs : Int) + q := by omega
    rw [if_pos hcond, if_pos htot]
  · intro h0 hside hq
    subst hside
    unfold updatePosition
    dsimp only
    have hcond : (0 ≤ pos.size ∧ pos.size < pos.size + -q) ∨
        (pos.size ≤ 0 ∧ pos.size + -q < pos.size) := Or.inr ⟨h0, by omega⟩
    have htot : (0 : Int) < (pos.size.natAbs : Int) + q := by omega
    rw [if_pos hcond, if_pos htot]
  · intro hz
    rw [updatePosition_size] at hz
    unfold updatePosition
    dsimp only
    cases side with
    | buy =>
      simp only at hz
      have hnot : ¬ ((0 ≤ pos.size ∧ pos.size < pos.size + q) ∨
          (pos.size ≤ 0 ∧ pos.size + q < pos.size)) := by omega
      rw [if_neg hnot, if_pos (by omega : pos.size + q = 0)]
    | sell =>
      simp only at hz
      have hnot : ¬ ((0 ≤ pos.size ∧ pos.size < pos.size + -q) ∨
          (pos.size ≤ 0 ∧ pos.size + -q < pos.size)) := by omega
      rw [if_neg hnot, if_pos (by omega : pos.size + -q = 0)]

/-- C7, witness: a long of 10 at entry 50 sold 4 at 60 realizes 40; a long of
10 at entry 50 buying 4 more at 60 moves the entry to the weighted average. -/
theorem c7_witness :
    ((updatePosition ⟨10, 50, 0⟩ .sell 4 60).realized_pnl =
      0 + min 4 (((10 : Int).natAbs : Int)) * (60 - 50)) ∧
    ((updatePosition ⟨10, 50, 0⟩ .buy 4 60).entry_price =
      Int.tdiv (((10 : Int).natAbs : Int) * 50 + 4 * 60)
        (((10 : Int).natAbs : Int) + 4)) :=
  ⟨(c7_update_position_pnl ⟨10, 50, 0⟩ .sell 4 60).1 (by decide) rfl,
   (c7_update_position_pnl ⟨10, 50, 0⟩ .buy 4 60).2.2.1 (by decide) rfl (by decide)⟩

/-! ## C6 -/

theorem sumPayments_cons (p : FundingPaymentS) (l : List FundingPaymentS) :
    sumPayments (p :: l) = p.payment + sumPayments l := by
  simp [sumPayments]

theorem adjustAt_get?_eq (l : List FundingPaymentS) (i : Nat) (s : Int) :
    (adjustAt l i s).get? i =
      (l.get? i).map (fun p => { p with payment := p.payment - s }) := by
  induction l generalizing i with
  | nil => simp [adjustAt]
  | cons hd tl ih =>
    cases i with
    | zero => simp [adjustAt]
    | succ n => simpa [adjustAt] using ih n

theorem adjustAt_get?_ne (l : List FundingPaymentS) (i j : Nat) (s : Int)
    (h : j ≠ i) : (adjustAt l i s).get? j = l.get? j := by
  induction l generalizing i j with
  | nil => simp [adjustAt]
  | cons hd tl ih =>
    cases i with
    | zero =>
      cases j with
      | zero => exact absurd rfl h
      | succ m => simp [adjustAt]
    | succ n =>
      cases j with
      | zero => simp [adjustAt]
      | succ m => simpa [adjustAt] using ih n m (by omega)

theorem sumPayments_adjustAt (l : List FundingPaymentS) (i : Nat) (s : Int)
    (h : i < l.length) :
    sumPayments (adjustAt l i s) = sumPayments l - s := by
  induction l generalizing i with
  | nil => simp at h
  | cons hd tl ih =>
    cases i with
    | zero =>
      simp [adjustAt, sumPayments_cons]
      ring
    | succ n =>
      have hlt : n < tl.length := by simpa using h
      have := ih n hlt
      simp [adjustAt, sumPayments_cons, this]
      ring

theorem lastArgmaxAux_spec (l : List Int) (i0 bi bk : Nat) :
    ∃ j k, lastArgmaxAux l i0 (some (bi, bk)) = some (j, k) ∧
      bk ≤ k ∧ (∀ x ∈ l, x.natAbs ≤ k) ∧
      ((j = bi ∧ k = bk) ∨
        ∃ m x, l.get? m = some x ∧ j = i0 + m ∧ k = x.natAbs) := by
  induction l generalizing i0 bi bk with
  | nil => exact ⟨bi, bk, rfl, le_refl _, by simp, Or.inl ⟨rfl, rfl⟩⟩
  | cons hd tl ih =>
    by_cases hcmp : bk ≤ hd.natAbs
    · obtain ⟨j, k, heq, hk, hall, hor⟩ := ih (i0 + 1) i0 hd.natAbs
      refine ⟨j, k, ?_, le_trans hcmp hk, ?_, ?_⟩
      · simpa [lastArgmaxAux, hcmp] using heq
      · intro x hx
        rcases List.mem_cons.mp hx with hx | hx
        · exact hx ▸ hk
        · exact hall x hx
      · rcases hor with ⟨hj, hkk⟩ | ⟨m, x, hget, hj, hkk⟩
        · exact Or.inr ⟨0, hd, by simp, by omega, by omega⟩
        · exact Or.inr ⟨m + 1, x, by simpa using hget, by omega, hkk⟩
    · obtain ⟨j, k, heq, hk, hall, hor⟩ := ih (i0 + 1) bi bk
      refine ⟨j, k, ?_, hk, ?_, ?_⟩
      · simpa [lastArgmaxAux, hcmp] using heq
      · intro x hx
        rcases List.mem_cons.mp hx with hx | hx
        · subst hx; omega
        · exact hall x hx
      · rcases hor with ⟨hj, hkk⟩ | ⟨m, x, hget, hj, hkk⟩
        · exact Or.inl ⟨hj, hkk⟩
        · exact Or.inr ⟨m + 1, x, by simpa using hget, by omega, hkk⟩

theorem lastArgmaxAbs_spec (x : Int) (xs : List Int) :
    ∃ i y, lastArgmaxAbs (x :: xs) = some i ∧ (x :: xs).get? i = some y ∧
      ∀ z ∈ x :: xs, z.natAbs ≤ y.natAbs := by
  obtain ⟨j, k, heq, hk, hall, hor⟩ := lastArgmaxAux_spec xs 1 0 x.natAbs
  have hrun : lastArgmaxAbs (x :: xs) = some j := by
    simp [lastArgmaxAbs, lastArgmaxAux, heq]
  rcases hor with ⟨hj, hkk⟩ | ⟨m, y, hget, hj, hkk⟩
  · refine ⟨j, x, hrun, ?_, ?_⟩
    · subst hj; simp
    · intro z hz
      rcases List.mem_cons.mp hz with hz | hz
      · subst hz; omega
      · subst hkk; exact hall z hz
  · refine ⟨j, y, hrun, ?_, ?_⟩
    · subst hj
      have h1m : 1 + m = m + 1 := by omega
      rw [h1m]
      simpa using hget
    · intro z hz
      rcases List.mem_cons.mp hz with hz | hz
      · subst hz; omega
      · subst hkk; exact hall z hz

/-- C6: `ensure_zero_sum` leaves the payment list summing to exactly zero; when
the incoming sum is already zero it changes nothing, and otherwise it changes
exactly one payment — one of maximal absolute value — by exactly the negation
of the original sum, leaving every other payment untouched. -/
theorem c6_ensure_zero_sum (l : List FundingPaymentS) :
    sumPayments (ensureZeroSum l) = 0
  ∧ (sumPayments l = 0 → ensureZeroSum l = l)
  ∧ (sumPayments l ≠ 0 → ∃ i pi,
      l.get? i = some pi ∧
      (∀ p' ∈ l, p'.payment.natAbs ≤ pi.payment.natAbs) ∧
      (ensureZeroSum l).get? i =
        some { pi with payment := pi.payment - sumPayments l } ∧
      ∀ j, j ≠ i → (ensureZeroSum l).get? j = l.get? j) := by
  by_cases hs : sumPayments l = 0
  · have he : ensureZeroSum l = l := by simp [ensureZeroSum, hs]
    exact ⟨by rw [he]; exact hs, fun _ => he, fun h => absurd hs h⟩
  · match l with
    | [] => simp [sumPayments] at hs
    | a :: l' =>
      obtain ⟨i, y, hrun, hget, hmax⟩ :=
        lastArgmaxAbs_spec a.payment (l'.map (·.payment))
      have he : ensureZeroSum (a :: l') =
          adjustAt (a :: l') i (sumPayments (a :: l')) := by
        simp [ensureZeroSum, hs, hrun]
      have hget2 : ((a :: l').map (·.payment)).get? i = some y := by
        simpa using hget
      rw [List.get?_map] at hget2
      cases hpi : (a :: l').get? i with
      | none => rw [hpi] at hget2; simp at hget2
      | some pi =>
        rw [hpi] at hget2
        simp only [Option.map_some'] at hget2
        have hpiy : pi.payment = y := by injection hget2
        have hlen : i < (a :: l').length := by
          by_contra hc
          rw [List.get?_eq_none.2 (by omega)] at hpi
          exact absurd hpi (by simp)
        refine ⟨?_, fun h => absurd h hs, fun _ => ⟨i, pi, hpi, ?_, ?_, ?_⟩⟩
        · rw [he, sumPayments_adjustAt _ _ _ hlen]
          ring
        · intro p' hp'
          have hm : p'.payment ∈ (a :: l').map (·.payment) :=
            List.mem_map_of_mem _ hp'
          have := hmax _ hm
          omega
        · rw [he, adjustAt_get?_eq, hpi]
          rfl
        · intro j hj
          rw [he, adjustAt_get?_ne _ _ _ _ hj]

/-- C6, witness: the three payments `-15, 10, 6` sum to 1; the adjusted list
sums to zero and only the maximal-absolute-value payment moved, by `-1`. -/
theorem c6_witness :
    sumPayments (ensureZeroSum paymentsW) = 0 ∧
    (∃ i pi,
      paymentsW.get? i = some pi ∧
      (∀ p' ∈ paymentsW, p'.payment.natAbs ≤ pi.payment.natAbs) ∧
      (ensureZeroSum paymentsW).get? i =
        some { pi with payment := pi.payment - sumPayments paymentsW } ∧
      ∀ j, j ≠ i → (ensureZeroSum paymentsW).get? j = paymentsW.get? j) :=
  ⟨(c6_ensure_zero_sum paymentsW).1,
   (c6_ensure_zero_sum paymentsW).2.2 (by decide)⟩

/-! ## C1 -/

/-- C1: the sequencing discipline of `process_event` while not halted, for any
checksum predicate and any handler of the non-funding payloads: a stale
sequence number is discarded with `Ok` and no state change; a gap sets the
kill switch, returns `SequenceGap{expected := last+1, actual}`, and mutates
nothing else; only the exactly-next sequence number is dispatched, and
`last_sequence` advances to the event's sequence exactly when dispatch
succeeds. -/
theorem c1_sequence_discipline (verify : EventS → Bool)
    (dOther : EventS → Mgr → Mgr × Option ErrS)
    (st : ProcStateS) (e : EventS) (hh : st.halted = false) :
    (e.sequence < st.lastSequence + 1 →
      processEvent verify dOther st e = (st, none))
  ∧ (st.lastSequence + 1 < e.sequence →
      processEvent verify dOther st e =
        ({ st with killSwitch := true },
          some (.sequenceGap (st.lastSequence + 1) e.sequence)))
  ∧ (e.sequence = st.lastSequence + 1 → verify e = true →
      (processEvent verify dOther st e).1.sub = (dispatchEvent dOther e st.sub).1
    ∧ ((dispatchEvent dOther e st.sub).2 = none →
        processEvent verify dOther st e =
          ({ st with sub := (dispatchEvent dOther e st.sub).1,
                     lastSequence := e.sequence }, none))
    ∧ (∀ er, (dispatchEvent dOther e st.sub).2 = some er →
        processEvent verify dOther st e =
          ({ st with sub := (dispatchEvent dOther e st.sub).1 }, some er))) := by
  refine ⟨?_, ?_, ?_⟩
  · intro hlt
    simp [processEvent, hh, hlt]
  · intro hgt
    have h1 : ¬ e.sequence < st.lastSequence + 1 := by omega
    simp [processEvent, hh, h1, hgt]
  · intro heq hv
    have h1 : ¬ e.sequence < st.lastSequence + 1 := by omega
    have h2 : ¬ st.lastSequence + 1 < e.sequence := by omega
    refine ⟨?_, ?_, ?_⟩
    · simp only [processEvent, hh, h1, h2, hv]
      simp only [if_false, Bool.not_true]
      cases hd2 : (dispatchEvent dOther e st.sub).2 <;> simp [hd2, heq]
    · intro hnone
      simp only [processEvent, hh, h1, h2, hv]
      simp [hnone, heq]
    · intro er her
      simp only [processEvent, hh, h1, h2, hv]
      simp [her, heq]

/-- C1, witness: at `last_sequence = 3`, event 5 trips the kill switch and
surfaces `SequenceGap{expected: 4, actual: 5}` without touching anything
else. -/
theorem c1_witness :
    processEvent constTrueVerify noopDispatch ⟨3, false, false, []⟩ ⟨5, .other 0⟩ =
      (⟨3, false, true, []⟩, some (.sequenceGap 4 5)) :=
  (c1_sequence_discipline constTrueVerify noopDispatch ⟨3, false, false, []⟩
    ⟨5, .other 0⟩ rfl).2.1 (by decide)

/-! ## C9 -/

theorem lookup_isSome_adjust (m : Mgr) (u v : Nat) (amt : Int)
    (h : (lookupAccount m v).isSome) :
    (lookupAccount (adjustBalance m u amt).1 v).isSome := by
  unfold adjustBalance
  cases hl : lookupAccount m u with
  | none => simpa using h
  | some a =>
    by_cases hv : v = u
    · subst hv
      simp [lookup_update_self, Option.isSome_map', h]
    · simp [lookup_update_other _ _ _ _ hv, h]

theorem totalBalance_cons (k : Nat) (a : AccountS) (tl : Mgr) :
    totalBalance ((k, a) :: tl) = a.balance + totalBalance tl := by
  simp [totalBalance]

theorem totalBalance_update (m : Mgr) (u : Nat) (amt : Int)
    (h : (lookupAccount m u).isSome) :
    totalBalance
      (updateAccount m u (fun x => { x with balance := x.balance + amt })) =
      totalBalance m + amt := by
  induction m with
  | nil => simp [lookupAccount] at h
  | cons hd tl ih =>
    obtain ⟨k, a⟩ := hd
    by_cases hk : k = u
    · simp [updateAccount, hk, totalBalance_cons]
      ring
    · have h' : (lookupAccount tl u).isSome := by
        simpa [lookupAccount, hk] using h
      simp [updateAccount, hk, totalBalance_cons, ih h']
      ring

theorem totalBalance_adjust (m : Mgr) (u : Nat) (amt : Int)
    (h : (lookupAccount m u).isSome) :
    totalBalance (adjustBalance m u amt).1 = totalBalance m + amt := by
  unfold adjustBalance
  cases hl : lookupAccount m u with
  | none => simp [hl] at h
  | some a => simpa using totalBalance_update m u amt h

theorem applyPayments_spec (ps : List FundingPaymentS) (m : Mgr)
    (h : ∀ p ∈ ps, (lookupAccount m p.user_id).isSome) :
    applyPayments ps m = (applyAllP ps m, sumPayments ps, none) := by
  induction ps generalizing m with
  | nil => simp [applyPayments, applyAllP, sumPayments]
  | cons p ps ih =>
    have hp := h p (List.mem_cons_self _ _)
    cases hl : lookupAccount m p.user_id with
    | none => simp [hl] at hp
    | some a =>
      have hstep : adjustBalance m p.user_id p.payment =
          (updateAccount m p.user_id
            (fun x => { x with balance := x.balance + p.payment }), none) := by
        simp [adjustBalance, hl]
      have hrest : ∀ q ∈ ps,
          (lookupAccount (adjustBalance m p.user_id p.payment).1 q.user_id).isSome :=
        fun q hq => lookup_isSome_adjust m p.user_id q.user_id p.payment
          (h q (List.mem_cons_of_mem _ hq))
      rw [hstep] at hrest
      simp only [applyPayments, hstep]
      rw [ih _ hrest]
      simp [applyAllP, sumPayments_cons, hstep]

theorem totalBalance_applyAllP (ps : List FundingPaymentS) (m : Mgr)
    (h : ∀ p ∈ ps, (lookupAccount m p.user_id).isSome) :
    totalBalance (applyAllP ps m) = totalBalance m + sumPayments ps := by
  induction ps generalizing m with
  | nil => simp [applyAllP, sumPayments]
  | cons p ps ih =>
    have hp := h p (List.mem_cons_self _ _)
    have hrest : ∀ q ∈ ps,
        (lookupAccount (adjustBalance m p.user_id p.payment).1 q.user_id).isSome :=
      fun q hq => lookup_isSome_adjust m p.user_id q.user_id p.payment
        (h q (List.mem_cons_of_mem _ hq))
    have hfold : applyAllP (p :: ps) m =
        applyAllP ps (adjustBalance m p.user_id p.payment).1 := rfl
    rw [hfold, ih _ hrest, totalBalance_adjust m _ _ hp, sumPayments_cons]
    ring

/-- C9: on a funding event whose payments sum to a nonzero total (all payees
having accounts), `process_event` surfaces `FundingNotZeroSum` only after
every payment has been applied through `adjust_balance`: the returned state is
exactly the sequential application of all payments, which differs from the
pre-event state — the error is not atomic. -/
theorem c9_funding_not_atomic (verify : EventS → Bool)
    (dOther : EventS → Mgr → Mgr × Option ErrS)
    (st : ProcStateS) (ps : List FundingPaymentS) (e : EventS)
    (hh : st.halted = false) (hseq : e.sequence = st.lastSequence + 1)
    (hv : verify e = true) (hp : e.payload = .funding ps)
    (hacc : ∀ p ∈ ps, (lookupAccount st.sub p.user_id).isSome)
    (hsum : sumPayments ps ≠ 0) :
    processEvent verify dOther st e =
      ({ st with sub := applyAllP ps st.sub },
        some (.fundingNotZeroSum (sumPayments ps)))
  ∧ applyAllP ps st.sub ≠ st.sub := by
  have hdisp : dispatchEvent dOther e st.sub =
      (applyAllP ps st.sub, some (.fundingNotZeroSum (sumPayments ps))) := by
    simp [dispatchEvent, hp, processFunding, applyPayments_spec ps st.sub hacc, hsum]
  constructor
  · have h1 : ¬ e.sequence < st.lastSequence + 1 := by omega
    have h2 : ¬ st.lastSequence + 1 < e.sequence := by omega
    simp [processEvent, hh, h1, h2, hv, hdisp]
  · intro hcontra
    have htot := totalBalance_applyAllP ps st.sub hacc
    rw [hcontra] at htot
    omega

/-- C9, witness: payments `+7` to user 100 and `-3` to user 200 (sum 4) are
both applied before the error is returned; the post-state keeps the mutated
balances. -/
theorem c9_witness :
    processEvent constTrueVerify noopDispatch ⟨3, false, false, mgrTwo⟩
        ⟨4, .funding [⟨100, 1, 7⟩, ⟨200, 1, -3⟩]⟩ =
      (⟨3, false, false, applyAllP [⟨100, 1, 7⟩, ⟨200, 1, -3⟩] mgrTwo⟩,
        some (.fundingNotZeroSum (sumPayments [⟨100, 1, 7⟩, ⟨200, 1, -3⟩]))) ∧
    applyAllP [⟨100, 1, 7⟩, ⟨200, 1, -3⟩] mgrTwo ≠ mgrTwo :=
  c9_funding_not_atomic constTrueVerify noopDispatch ⟨3, false, false, mgrTwo⟩
    [⟨100, 1, 7⟩, ⟨200, 1, -3⟩] ⟨4, .funding [⟨100, 1, 7⟩, ⟨200, 1, -3⟩]⟩
    rfl rfl rfl rfl (by decide) (by decide)

/-! ## C2 -/

theorem matchAtLevel_trades (taker : OrderS) (feeM feeT : ℚ) (rem : Int)
    (orders : List OrderS) :
    ∀ t ∈ (matchAtLevel taker feeM feeT rem orders).trades,
      ∃ o ∈ orders, t.price = o.price ∧ t.maker_order_id = o.order_id := by
  induction orders generalizing rem with
  | nil => intro t ht; simp [matchAtLevel] at ht
  | cons maker rest ih =>
    intro t ht
    by_cases h0 : rem ≤ 0
    · simp [matchAtLevel, h0] at ht
    · by_cases hst : selfTradeCancelsMaker maker taker
      · simp only [matchAtLevel, if_neg h0, if_pos hst] at ht
        obtain ⟨o, ho, hh⟩ := ih rem t ht
        exact ⟨o, List.mem_cons_of_mem _ ho, hh⟩
      · simp only [matchAtLevel, if_neg h0, if_neg hst] at ht
        by_cases hfull : maker.filled + min rem (maker.quantity - maker.filled) =
            maker.quantity
        · simp only [if_pos hfull] at ht
          rcases List.mem_cons.mp ht with hteq | htin
          · subst hteq
            exact ⟨maker, List.mem_cons_self _ _, rfl, rfl⟩
          · obtain ⟨o, ho, hh⟩ := ih _ t htin
            exact ⟨o, List.mem_cons_of_mem _ ho, hh⟩
        · simp only [if_neg hfull] at ht
          rcases List.mem_cons.mp ht with hteq | htin
          · subst hteq
            exact ⟨maker, List.mem_cons_self _ _, rfl, rfl⟩
          · simp at htin

theorem matchLoop_trades (taker : OrderS) (feeM feeT : ℚ) (rem : Int)
    (ls : List LevelS) (hwf : levelsWF ls) :
    ∀ t ∈ (matchLoop taker feeM feeT rem ls).trades,
      priceCrosses taker.side taker.price t.price = true ∧
      ∃ lvl ∈ ls, ∃ o ∈ lvl.orders,
        t.price = o.price ∧ t.maker_order_id = o.order_id := by
  induction ls generalizing rem with
  | nil => intro t ht; simp [matchLoop] at ht
  | cons lvl rest ih =>
    intro t ht
    by_cases h0 : rem ≤ 0
    · simp [matchLoop, h0] at ht
    · by_cases hcross : priceCrosses taker.side taker.price lvl.price
      · have hncross : ¬ (!priceCrosses taker.side taker.price lvl.price) = true := by
          simp [hcross]
        have hwfrest : levelsWF rest := fun l hl => hwf l (List.mem_cons_of_mem _ hl)
        have hinner : ∀ t ∈ (matchAtLevel taker feeM feeT rem lvl.orders).trades,
            priceCrosses taker.side taker.price t.price = true ∧
            ∃ l ∈ lvl :: rest, ∃ o ∈ l.orders,
              t.price = o.price ∧ t.maker_order_id = o.order_id := by
          intro t' ht'
          obtain ⟨o, ho, hpr, hid⟩ :=
            matchAtLevel_trades taker feeM feeT rem lvl.orders t' ht'
          have hop : o.price = lvl.price := hwf lvl (List.mem_cons_self _ _) o ho
          refine ⟨?_, lvl, List.mem_cons_self _ _, o, ho, hpr, hid⟩
          rw [hpr, hop]
          exact hcross
        by_cases hemp : (matchAtLevel taker feeM feeT rem lvl.orders).orders.isEmpty
        · simp only [matchLoop, if_neg h0, if_neg hncross, if_pos hemp] at ht
          rcases List.mem_append.mp ht with hin | hin
          · exact hinner t hin
          · obtain ⟨hc, l, hl, hrest⟩ := ih _ hwfrest t hin
            exact ⟨hc, l, List.mem_cons_of_mem _ hl, hrest⟩
        · simp only [matchLoop, if_neg h0, if_neg hncross, if_neg hemp] at ht
          exact hinner t ht
      · have hncross : (!priceCrosses taker.side taker.price lvl.price) = true := by
          simp [hcross]
        simp only [matchLoop, if_neg h0, if_pos hncross] at ht
        simp at ht

theorem matchOrder_ok_trades (feeM feeT : ℚ) (o : OrderS) (b : BookS) (bal : Mgr)
    (mark : Int) (ts : List TradeS)
    (h : (matchOrder feeM feeT o b bal mark).result = .ok ts) :
    ts = (matchLoop o feeM feeT o.quantity
      (match o.side with | .buy => b.asks | .sell => b.bids)).trades := by
  unfold matchOrder at h
  dsimp only at h
  split at h
  · split at h
    · simp at h
    · split at h
      · simp at h
      · simp only [MatchResult.mk.injEq] at h
        exact (Except.ok.injEq _ _ ).mp h.symm |>.symm ▸ rfl
  · exact ((Except.ok.injEq _ _).mp h).symm

/-- C2: for any taker order matched against a well-formed book, every trade
`match_order` returns carries the matched maker order's resting price (the
maker is resting in the pre-match book), and the taker's limit crosses that
price: a buying taker pays at most its limit, a selling taker receives at
least its limit. -/
theorem c2_trade_price_crosses (feeM feeT : ℚ) (taker : OrderS) (book : BookS)
    (bal : Mgr) (mark : Int) (ts : List TradeS)
    (hwfb : levelsWF book.bids) (hwfa : levelsWF book.asks)
    (hok : (matchOrder feeM feeT taker book bal mark).result = .ok ts) :
    ∀ t ∈ ts,
      ((taker.side = .buy → t.price ≤ taker.price) ∧
       (taker.side = .sell → taker.price ≤ t.price)) ∧
      ∃ lvl, (lvl ∈ book.bids ∨ lvl ∈ book.asks) ∧
        ∃ o ∈ lvl.orders, t.price = o.price ∧ t.maker_order_id = o.order_id := by
  have hts := matchOrder_ok_trades feeM feeT taker book bal mark ts hok
  intro t ht
  rw [hts] at ht
  cases hside : taker.side with
  | buy =>
    rw [hside] at ht
    obtain ⟨hc, lvl, hlvl, o, ho, hpr, hid⟩ :=
      matchLoop_trades taker feeM feeT taker.quantity book.asks hwfa t ht
    rw [hside] at hc
    simp only [priceCrosses, decide_eq_true_eq] at hc
    exact ⟨⟨fun _ => hc, fun hs => absurd hs (by decide)⟩,
      ⟨lvl, Or.inr hlvl, ⟨o, ho, hpr, hid⟩⟩⟩
  | sell =>
    rw [hside] at ht
    obtain ⟨hc, lvl, hlvl, o, ho, hpr, hid⟩ :=
      matchLoop_trades taker feeM feeT taker.quantity book.bids hwfb t ht
    rw [hside] at hc
    simp only [priceCrosses, decide_eq_true_eq] at hc
    exact ⟨⟨fun hs => absurd hs (by decide), fun _ => hc⟩,
      ⟨lvl, Or.inl hlvl, ⟨o, ho, hpr, hid⟩⟩⟩

/-- C2, witness: an IOC buy of 1 at 100 against the one-ask book trades at the
resting maker's price 100, which its limit crosses. -/
theorem c2_witness :
    ((takerIOC.side = .buy → tradeW.price ≤ takerIOC.price) ∧
     (takerIOC.side = .sell → takerIOC.price ≤ tradeW.price)) ∧
    ∃ lvl, (lvl ∈ bookOneAsk.bids ∨ lvl ∈ bookOneAsk.asks) ∧
      ∃ o ∈ lvl.orders, tradeW.price = o.price ∧
        tradeW.maker_order_id = o.order_id :=
  c2_trade_price_crosses 0 0 takerIOC bookOneAsk mgrTwo 100 [tradeW]
    (by decide) (by decide) (by decide) tradeW (by decide)

/-! ## C10 -/

theorem removeAll'_nil (l : List Nat) : List.removeAll' l [] = l := by
  simp [List.removeAll']

theorem matchLoop_no_cross (taker : OrderS) (feeM feeT : ℚ) (rem : Int)
    (ls : List LevelS)
    (hnc : ∀ lvl ∈ ls, priceCrosses taker.side taker.price lvl.price = false) :
    matchLoop taker feeM feeT rem ls = ⟨[], rem, ls, []⟩ := by
  cases ls with
  | nil => rfl
  | cons lvl rest =>
    by_cases h0 : rem ≤ 0
    · simp [matchLoop, h0]
    · have hx := hnc lvl (List.mem_cons_self _ _)
      simp [matchLoop, h0, hx]

theorem insertBid_mem (o : OrderS) (ls : List LevelS) :
    ∃ lvl ∈ insertBid o ls, lvl.price = o.price ∧ o ∈ lvl.orders := by
  induction ls with
  | nil =>
    exact ⟨singletonLevel o, by simp [insertBid], rfl, by simp [singletonLevel]⟩
  | cons l rest ih =>
    by_cases h1 : l.price = o.price
    · refine ⟨pushToLevel o l, by simp [insertBid, h1], ?_, ?_⟩
      · simpa [pushToLevel] using h1
      · simp [pushToLevel]
    · by_cases h2 : l.price < o.price
      · exact ⟨singletonLevel o, by simp [insertBid, h1, h2], rfl,
          by simp [singletonLevel]⟩
      · obtain ⟨lvl, hm, hp, ho⟩ := ih
        exact ⟨lvl, by simp [insertBid, h1, h2]; right; exact hm, hp, ho⟩

/-- C10: a market buy (absent price) is built with price zero by
`process_order_submit`; against any book whose ask levels all carry positive
prices it crosses nothing (`price_crosses` fails at the best ask), so the
matcher emits no trades; and when it is GTC (margin reservation succeeding and
its id not already indexed) the full, unfilled order rests as a bid at price
zero. -/
theorem c10_market_buy_rests_at_zero (feeM feeT : ℚ) (s : OrderSubmitS)
    (book : BookS) (bal : Mgr) (mark : Int)
    (hside : s.side = .buy) (hp : s.price = none)
    (hasks : ∀ lvl ∈ book.asks, 0 < lvl.price) :
    (mkInternalOrder s).price = 0
  ∧ matchLoop (mkInternalOrder s) feeM feeT s.quantity book.asks =
      ⟨[], s.quantity, book.asks, []⟩
  ∧ (s.time_in_force = .gtc → 0 < s.quantity →
      (reserveMargin bal s.user_id
        (calcOrderMargin (mkInternalOrder s) mark)).2 = none →
      s.order_id ∉ book.index →
      (matchOrder feeM feeT (mkInternalOrder s) book bal mark).result = .ok []
    ∧ ∃ lvl ∈ (matchOrder feeM feeT (mkInternalOrder s) book bal mark).book.bids,
        lvl.price = 0 ∧ mkInternalOrder s ∈ lvl.orders) := by
  obtain ⟨oid, uid, sd, pr, qty, tif⟩ := s
  obtain ⟨bb, ba, bix⟩ := book
  simp only at hside hp hasks
  subst hside
  subst hp
  have hord : mkInternalOrder ⟨oid, uid, .buy, none, qty, tif⟩ =
      ⟨oid, uid, .buy, 0, qty, 0, tif⟩ := rfl
  rw [hord]
  have hnc : ∀ lvl ∈ ba,
      priceCrosses SideS.buy (0 : Int) lvl.price = false := by
    intro lvl hl
    have := hasks lvl hl
    simp [priceCrosses]
    omega
  have hloop := matchLoop_no_cross ⟨oid, uid, .buy, 0, qty, 0, tif⟩ feeM feeT qty ba hnc
  refine ⟨rfl, hloop, ?_⟩
  intro htif hq hres hdup
  simp only at htif hq hres hdup
  subst htif
  unfold matchOrder
  dsimp only
  rw [hloop]
  dsimp only
  rw [removeAll'_nil]
  rw [if_pos ⟨hq, rfl⟩]
  have hbo : (⟨oid, uid, SideS.buy, 0, qty, qty - qty, TIFS.gtc⟩ : OrderS) =
      ⟨oid, uid, SideS.buy, 0, qty, 0, TIFS.gtc⟩ := by
    simp
  rw [hbo]
  cases hrm : reserveMargin bal uid
      (calcOrderMargin ⟨oid, uid, .buy, 0, qty, 0, .gtc⟩ mark) with
  | mk bal2 err =>
    have herr : err = none := by
      have h2 := hres
      rw [hrm] at h2
      exact h2
    subst herr
    dsimp only
    have hadd : addOrder ⟨bb, ba, bix⟩ ⟨oid, uid, .buy, 0, qty, 0, .gtc⟩ =
        (⟨insertBid ⟨oid, uid, .buy, 0, qty, 0, .gtc⟩ bb, ba,
          oid :: bix⟩, none) := by
      simp [addOrder, hdup]
    rw [hadd]
    refine ⟨rfl, ?_⟩
    obtain ⟨lvl, hm, hpr, ho⟩ :=
      insertBid_mem ⟨oid, uid, .buy, 0, qty, 0, .gtc⟩ bb
    exact ⟨lvl, hm, hpr, ho⟩

/-- C10, witness: the market buy of 5 (no price, GTC) against the one-ask book
at 100 trades nothing and rests as a bid at price zero. -/
theorem c10_witness :
    (mkInternalOrder subW).price = 0
  ∧ matchLoop (mkInternalOrder subW) 0 0 subW.quantity bookOneAsk.asks =
      ⟨[], subW.quantity, bookOneAsk.asks, []⟩
  ∧ ((matchOrder 0 0 (mkInternalOrder subW) bookOneAsk mgrTwo 100).result = .ok []
    ∧ ∃ lvl ∈ (matchOrder 0 0 (mkInternalOrder subW) bookOneAsk mgrTwo 100).book.bids,
        lvl.price = 0 ∧ mkInternalOrder subW ∈ lvl.orders) :=
  have h := c10_market_buy_rests_at_zero 0 0 subW bookOneAsk mgrTwo 100
    rfl rfl (by decide)
  ⟨h.1, h.2.1, h.2.2 rfl (by decide) (by decide) (by decide)⟩

end PerpInfra
